import Mathlib

/-!
Verification development for the `local-comments` extension core
(`src/extension.ts`): the anchored-annotation data model, the staleness
evaluator `isCommentStillValid`, the legacy-format migration in
`loadComments`, the annotation store mutations in `savePendingComment` /
`openCommentInput`, and the presentation sequencer in `createSidebarHTML`
(timestamp sort, deterministic hash shuffle, interleaving).

Documents are modelled as lists of lines (`List String`); JavaScript
numbers that hold line/column data are modelled as `Nat` (they are always
non-negative in the reachable states), and the 32-bit wrapping hash is
modelled on `Int` with explicit reduction modulo 2^32.
-/

namespace LocalComments

/-- The `CommentRange` of the source: anchor coordinates plus the optional
captured text (`selectedText` present exactly for span anchors). -/
structure CommentRange where
  startLine : Nat
  startCharacter : Nat
  endLine : Nat
  endCharacter : Nat
  selectedText : Option String
deriving DecidableEq

/-- The `Comment` of the source: id, user text, optional creation timestamp
(epoch milliseconds) and the anchor range. -/
structure Comment where
  id : String
  text : String
  timestamp : Option Nat
  range : CommentRange
deriving DecidableEq

/-- The annotation store `commentData`: a JavaScript object mapping file
names to arrays of comments, modelled as an insertion-ordered association
list. -/
abbrev Store := List (String × List Comment)

/-- The ASCII part of the JavaScript whitespace class used by `trim()` and
the regex `\s` (space, tab, line feed, carriage return, vertical tab, form
feed). -/
def isJsWhitespace (c : Char) : Bool :=
  c = ' ' || c = '\t' || c = '\n' || c = '\r' || c = '\x0b' || c = '\x0c'

/-- JavaScript `String.prototype.trim`: drop whitespace from both ends. -/
def jsTrim (l : List Char) : List Char :=
  ((l.dropWhile isJsWhitespace).reverse.dropWhile isJsWhitespace).reverse

/-- JavaScript `s.trim()` on a Lean string. -/
def jsTrimStr (s : String) : String := (jsTrim s.toList).asString

/-- JavaScript `replace(/\s+/g, ' ')`: every maximal run of whitespace
characters becomes a single space. -/
def collapseWS : List Char → List Char
  | [] => []
  | [c] => if isJsWhitespace c then [' '] else [c]
  | c₁ :: c₂ :: rest =>
    if isJsWhitespace c₁ then
      (if isJsWhitespace c₂ then collapseWS (c₂ :: rest)
       else ' ' :: collapseWS (c₂ :: rest))
    else c₁ :: collapseWS (c₂ :: rest)

/-- The `normalizeText` helper of `isCommentStillValid`:
`(text) => text.trim().replace(/\s+/g, ' ')`. -/
def normalizeText (s : String) : String :=
  (collapseWS (jsTrim s.toList)).asString

/-- The line at index `i`, empty if out of range. -/
def lineAt (doc : List String) (i : Nat) : String := doc.getD i ""

/-- The editor's `TextDocument.validatePosition`: a line beyond the end is clamped to
the end of the last line; otherwise the character is clamped to the line
length. -/
def validatePos (doc : List String) (p : Nat × Nat) : Nat × Nat :=
  if p.1 ≥ doc.length then (doc.length - 1, (lineAt doc (doc.length - 1)).length)
  else (p.1, min p.2 (lineAt doc p.1).length)

/-- The editor's `TextDocument.getText(range)`: the text between the validated start
and end positions, lines joined with a newline. -/
def getText (doc : List String) (s e : Nat × Nat) : String :=
  let sv := validatePos doc s
  let ev := validatePos doc e
  if sv.1 = ev.1 then ((lineAt doc sv.1).drop sv.2).take (ev.2 - sv.2)
  else
    String.intercalate "\n"
      (((lineAt doc sv.1).drop sv.2) ::
        ((doc.drop (sv.1 + 1)).take (ev.1 - sv.1 - 1) ++ [(lineAt doc ev.1).take ev.2]))

/-- Lexicographic order on positions (line, character). -/
def lexLe (a b : Nat × Nat) : Bool := a.1 < b.1 || (a.1 = b.1 && a.2 ≤ b.2)

/-- The `vscode.Range` constructor: if the given start is after the given
end, the two positions are swapped. -/
def normRange (s e : Nat × Nat) : (Nat × Nat) × (Nat × Nat) :=
  if lexLe s e then (s, e) else (e, s)

/-- The `isCommentStillValid` of the source: out-of-bounds end line is
stale; a line comment (no `selectedText`) is valid iff its start line
exists; a span comment compares whitespace-normalized current text at the
anchor against the stored `selectedText`. -/
def isCommentStillValid (c : Comment) (doc : List String) : Bool :=
  let r := normRange (c.range.startLine, c.range.startCharacter)
                     (c.range.endLine, c.range.endCharacter)
  if r.2.1 ≥ doc.length then false
  else
    match c.range.selectedText with
    | none => decide (c.range.startLine < doc.length)
    | some sel => normalizeText (getText doc r.1 r.2) == normalizeText sel

/-- The JavaScript `Number.MAX_SAFE_INTEGER`, the sentinel end column given to migrated
line comments ("span entire line"). -/
def maxSafeInteger : Nat := 9007199254740991

/-- One persisted document value: either the new format (an array of
comments) or the legacy format (a mapping from 1-based line number to
comment text, modelled as an ordered list of entries). -/
inductive RawEntry where
  | arr (comments : List Comment)
  | legacy (entries : List (Nat × String))
deriving DecidableEq

/-- The comment built by `loadComments` for one legacy entry: 0-based
line, column 0 to the sentinel end column, no captured text, no
timestamp. -/
def mkMigrated (idStr : String) (p : Nat × String) : Comment :=
  { id := idStr, text := p.2, timestamp := none,
    range := { startLine := p.1 - 1, startCharacter := 0, endLine := p.1 - 1,
               endCharacter := maxSafeInteger, selectedText := none } }

/-- The legacy-migration loop of `loadComments`, with `gen` supplying the
value of each `generateCommentId()` call by call index. -/
def migrateLegacyFrom (gen : Nat → String) (k : Nat) :
    List (Nat × String) → List Comment
  | [] => []
  | p :: rest => mkMigrated (gen k) p :: migrateLegacyFrom gen (k + 1) rest

/-- Migration of one legacy document entry. -/
def migrateLegacy (gen : Nat → String) (entries : List (Nat × String)) :
    List Comment :=
  migrateLegacyFrom gen 0 entries

/-- The per-document branch of `loadComments`: arrays pass through
unchanged, legacy mappings are migrated. -/
def migrateRaw (gen : Nat → String) : RawEntry → List Comment
  | .arr cs => cs
  | .legacy es => migrateLegacy gen es

/-- The `loadComments` loop over parsed persisted data: each document entry is
migrated into the store. -/
def loadStore (gen : Nat → String) (parsed : List (String × RawEntry)) : Store :=
  parsed.map fun p => (p.1, migrateRaw gen p.2)

/-- Association-list lookup, `commentData[fileName]`. -/
def lookupStore : Store → String → Option (List Comment)
  | [], _ => none
  | (g, cs) :: rest, f => if g = f then some cs else lookupStore rest f

/-- JavaScript property assignment `commentData[fileName] = v`: replace
in place if the key exists, else append the new key at the end. -/
def setStore : Store → String → List Comment → Store
  | [], f, v => [(f, v)]
  | (g, cs) :: rest, f, v =>
    if g = f then (g, v) :: rest else (g, cs) :: setStore rest f v

/-- JavaScript `delete commentData[fileName]`. -/
def delStore : Store → String → Store
  | [], _ => []
  | (g, cs) :: rest, f => if g = f then rest else (g, cs) :: delStore rest f

/-- The in-place mutation applied to the found comment:
`existing.text = text`, and `existing.range.selectedText = sel` only when
the committed range carries a selection. -/
def applyEdit (text : String) (sel : Option String) (c : Comment) : Comment :=
  { c with text := text,
           range := match sel with
                    | some s => { c.range with selectedText := some s }
                    | none => c.range }

/-- The update branch of `savePendingComment`: `find` the first comment
with the given id and mutate it via `applyEdit`. -/
def updateFirstById (cs : List Comment) (eid : String) (text : String)
    (sel : Option String) : List Comment :=
  match cs with
  | [] => []
  | c :: rest =>
    if c.id = eid then applyEdit text sel c :: rest
    else c :: updateFirstById rest eid text sel

/-- The store transition of `savePendingComment(text)` (the same logic as
the commit callback inside `openCommentInput`): empty trimmed text
deletes the comment named by `existingId` (dropping the document entry if
its list becomes empty); otherwise the comment named by `existingId` is
updated in place, or a fresh comment (`newId`, timestamp `now`) is
appended. -/
def savePendingComment (st : Store) (f : String) (rng : CommentRange)
    (text : String) (existingId : Option String) (newId : String)
    (now : Nat) : Store :=
  if jsTrimStr text = "" then
    match existingId with
    | some eid =>
      match lookupStore st f with
      | some cs =>
        match cs.findIdx? (fun c => c.id = eid) with
        | some i =>
          let cs' := cs.eraseIdx i
          if cs' = [] then delStore st f else setStore st f cs'
        | none => st
      | none => st
    | none => st
  else
    let cs0 := (lookupStore st f).getD []
    match existingId with
    | some eid => setStore st f (updateFirstById cs0 eid text rng.selectedText)
    | none =>
      setStore st f (cs0 ++
        [{ id := newId, text := text, timestamp := some now,
           range := { startLine := rng.startLine,
                      startCharacter := rng.startCharacter,
                      endLine := rng.endLine,
                      endCharacter := rng.endCharacter,
                      selectedText := rng.selectedText } }])

/-- The store invariant: every document entry holds a non-empty list. -/
def StoreWF (st : Store) : Prop := ∀ p ∈ st, p.2 ≠ []

instance : DecidablePred StoreWF := fun st =>
  inferInstanceAs (Decidable (∀ p ∈ st, p.2 ≠ []))

/-- One element of the sidebar's `allComments` list: a comment paired
with the file it belongs to. -/
structure Entry where
  fileName : String
  comment : Comment
deriving DecidableEq

instance : Inhabited Entry :=
  ⟨⟨"", { id := "", text := "", timestamp := none,
          range := { startLine := 0, startCharacter := 0, endLine := 0,
                     endCharacter := 0, selectedText := none } }⟩⟩

/-- A sample anchor used to instantiate universally quantified results. -/
def demoRange : CommentRange :=
  { startLine := 0, startCharacter := 0, endLine := 0, endCharacter := 0,
    selectedText := none }

/-- A sample comment used to instantiate universally quantified results. -/
def demoComment : Comment :=
  { id := "a", text := "t", timestamp := none, range := demoRange }

/-- A sample one-document store. -/
def demoStore : Store := [("f", [demoComment])]

/-- A sample entry used to instantiate universally quantified results. -/
def demoEntry : Entry := ⟨"f", demoComment⟩

/-- A persisted document value that carries at least one annotation:
a non-empty array in the new format or a non-empty mapping in the legacy
format. -/
def rawNonEmpty : RawEntry → Prop
  | .arr cs => cs ≠ []
  | .legacy es => es ≠ []

/-- JavaScript truthiness of `item.comment.timestamp`: present and
non-zero. -/
def hasTime (e : Entry) : Bool :=
  match e.comment.timestamp with
  | some t => decide (t ≠ 0)
  | none => false

/-- The timestamp value used by the descending sort comparator. -/
def getTime (e : Entry) : Nat := e.comment.timestamp.getD 0

/-- Collect all comments from all files, in store order (the
`Object.entries` loop in `createSidebarHTML`). -/
def allEntries (st : Store) : List Entry :=
  st.flatMap fun p => p.2.map fun c => ⟨p.1, c⟩

/-- Wrap an integer to a signed 32-bit value, as JavaScript bitwise
operators do: reduce modulo 2^32 into the range [-2^31, 2^31). -/
def jsToInt32 (n : Int) : Int :=
  let m := n % 4294967296
  if m < 2147483648 then m else m - 4294967296

/-- One step of the sidebar hash reduce:
`a = ((a << 5) - a) + ch; return a & a;` — the shift wraps to 32 bits, the
subtraction and addition are exact, and `a & a` wraps the result. -/
def jsHashStep (a : Int) (ch : Nat) : Int :=
  jsToInt32 (jsToInt32 (32 * a) - a + ch)

/-- The full deterministic hash of a string used by the sidebar shuffle,
folding `jsHashStep` over the character codes starting from 0. -/
def jsHash (s : String) : Int :=
  s.toList.foldl (fun a ch => jsHashStep a ch.toNat) 0

/-- Modelled from the spec: the polynomial rolling hash of section 4.4,
"multiply running hash by 31, add next character code, each step wrapped
to signed 32-bit". Stated separately from `jsHash` so the two can be
compared. -/
def specPolyHash (s : String) : Int :=
  s.toList.foldl (fun h ch => jsToInt32 (31 * h + ch.toNat)) 0

/-- The hash input for one entry: `comment.id + fileName`. -/
def shuffleKey (e : Entry) : Int := jsHash (e.comment.id ++ e.fileName)

/-- The simultaneous swap
`[l[i], l[j]] = [l[j], l[i]]` on a list. -/
def swapList (l : List Entry) (i j : Nat) : List Entry :=
  (l.set i (l.getD j default)).set j (l.getD i default)

/-- The swap index chosen at position `i` of the shuffle:
`Math.abs(hash) % (i + 1)` for the hash of the element currently at
position `i`. -/
def fyKeyAt (l : List Entry) (i : Nat) : Nat :=
  (shuffleKey (l.getD i default)).natAbs % (i + 1)

/-- One iteration of the shuffle loop body at index `i`. -/
def fyStep (l : List Entry) (i : Nat) : List Entry :=
  swapList l i (fyKeyAt l i)

/-- The shuffle loop running from index `i` down to 1. -/
def fyGo : List Entry → Nat → List Entry
  | l, 0 => l
  | l, i + 1 => fyGo (fyStep l (i + 1)) i

/-- The deterministic shuffle of the non-timestamped comments:
`for (let i = length - 1; i > 0; i--) ...`. -/
def fyShuffle (l : List Entry) : List Entry := fyGo l (l.length - 1)

/-- The descending timestamp sort of the timestamped comments. JavaScript
`Array.prototype.sort` is stable, and a stable sort's output is uniquely
determined by the comparator, so it is modelled by the stable
`List.mergeSort`. -/
def sortTimedDesc (l : List Entry) : List Entry :=
  l.mergeSort fun a b => decide (getTime b ≤ getTime a)

/-- The interleave loop: in each round emit one timestamped comment
(while any remain) and then up to two non-timestamped ones (while any
remain). -/
def interleave : List Entry → List Entry → List Entry
  | [], [] => []
  | t :: ts, ns => t :: (ns.take 2 ++ interleave ts (ns.drop 2))
  | [], n :: ns => n :: ns

/-- The full ordering produced by `createSidebarHTML`: partition by
timestamp truthiness, sort the timestamped part descending, shuffle the
rest deterministically, then interleave. -/
def sequenceEntries (st : Store) : List Entry :=
  interleave (sortTimedDesc ((allEntries st).filter hasTime))
    (fyShuffle ((allEntries st).filter fun e => !hasTime e))

/-- The maximal non-whitespace runs of a character list, in order: the
content that whitespace normalization preserves. -/
def tokens : List Char → List (List Char)
  | [] => []
  | c :: rest =>
    if isJsWhitespace c then tokens rest
    else
      match rest.head? with
      | none => [[c]]
      | some d =>
        if isJsWhitespace d then [c] :: tokens rest
        else
          match tokens rest with
          | [] => [[c]]
          | t :: ts => (c :: t) :: ts

/-- Join tokens with single spaces. -/
def joinSp : List (List Char) → List Char
  | [] => []
  | [t] => t
  | t :: ts => t ++ ' ' :: joinSp ts

/-- The head, if any, is not whitespace. -/
def headNotWS : List Char → Prop
  | [] => True
  | c :: _ => isJsWhitespace c = false

/-- The last character, if any, is whitespace. -/
def endsWS (l : List Char) : Bool :=
  match l.getLast? with
  | some c => isJsWhitespace c
  | none => false

lemma tokens_nil : tokens [] = [] := rfl

lemma tokens_cons_ws {c : Char} {rest : List Char}
    (h : isJsWhitespace c = true) : tokens (c :: rest) = tokens rest := by
  simp [tokens, h]

lemma tokens_cons_nonws {c : Char} {rest : List Char}
    (h : isJsWhitespace c = false) :
    tokens (c :: rest) =
      (c :: rest.takeWhile (fun x => !isJsWhitespace x)) ::
        tokens (rest.dropWhile (fun x => !isJsWhitespace x)) := by
  induction rest generalizing c with
  | nil => simp [tokens, h]
  | cons d rest' ih =>
    by_cases hd : isJsWhitespace d = true
    · simp [tokens, h, hd, List.takeWhile_cons, List.dropWhile_cons]
    · have hd' : isJsWhitespace d = false := by simpa using hd
      have hrec := ih hd'
      conv_lhs => rw [tokens]
      rw [hrec]
      simp [h, hd', List.takeWhile_cons, List.dropWhile_cons]

lemma takeWhile_append_all {p : Char → Bool} {a : List Char} (b : List Char)
    (h : ∀ x ∈ a, p x = true) :
    (a ++ b).takeWhile p = a ++ b.takeWhile p := by
  induction a with
  | nil => rfl
  | cons x a ih =>
    have hx := h x (by simp)
    simp only [List.cons_append, List.takeWhile_cons, hx, if_true]
    simpa using ih fun y hy => h y (by simp [hy])

lemma dropWhile_append_all {p : Char → Bool} {a : List Char} (b : List Char)
    (h : ∀ x ∈ a, p x = true) :
    (a ++ b).dropWhile p = b.dropWhile p := by
  induction a with
  | nil => rfl
  | cons x a ih =>
    have hx := h x (by simp)
    simp only [List.cons_append, List.dropWhile_cons, hx, if_true]
    exact ih fun y hy => h y (by simp [hy])

lemma takeWhile_append_headFalse {p : Char → Bool} {a b : List Char}
    (hb : ∀ h0, b.head? = some h0 → p h0 = false) :
    (a ++ b).takeWhile p = a.takeWhile p := by
  induction a with
  | nil =>
    cases b with
    | nil => rfl
    | cons h0 t => simp [List.takeWhile_cons, hb h0 rfl]
  | cons x a ih =>
    by_cases hx : p x = true <;>
      simp [List.takeWhile_cons, hx, ih]

lemma dropWhile_append_headFalse {p : Char → Bool} {a b : List Char}
    (hb : ∀ h0, b.head? = some h0 → p h0 = false) :
    (a ++ b).dropWhile p = a.dropWhile p ++ b := by
  induction a with
  | nil =>
    cases b with
    | nil => rfl
    | cons h0 t => simp [List.dropWhile_cons, hb h0 rfl]
  | cons x a ih =>
    by_cases hx : p x = true <;>
      simp [List.dropWhile_cons, hx, ih]

lemma dropWhile_head_false {p : Char → Bool} {l a : List Char} {c : Char}
    (h : l.dropWhile p = c :: a) : p c = false := by
  induction l with
  | nil => simp at h
  | cons x l ih =>
    by_cases hx : p x = true
    · exact ih (by simpa [List.dropWhile_cons, hx] using h)
    · have hxa : x :: l = c :: a := by simpa [List.dropWhile_cons, hx] using h
      have hxc : x = c := (List.cons.inj hxa).1
      rw [← hxc]
      simpa using hx

lemma tokens_all_ws {w : List Char}
    (hw : ∀ c ∈ w, isJsWhitespace c = true) : tokens w = [] := by
  induction w with
  | nil => exact tokens_nil
  | cons c rest ih =>
    rw [tokens_cons_ws (hw c (by simp))]
    exact ih fun d hd => hw d (by simp [hd])

lemma tokens_ws_append {w : List Char} (x : List Char)
    (hw : ∀ c ∈ w, isJsWhitespace c = true) : tokens (w ++ x) = tokens x := by
  induction w with
  | nil => rfl
  | cons c rest ih =>
    rw [List.cons_append, tokens_cons_ws (hw c (by simp))]
    exact ih fun d hd => hw d (by simp [hd])

lemma ws_head_false {w : List Char}
    (hw : ∀ c ∈ w, isJsWhitespace c = true) :
    ∀ h0, w.head? = some h0 → (fun x => !isJsWhitespace x) h0 = false := by
  intro h0 hh0
  cases w with
  | nil => simp at hh0
  | cons y t =>
    have hy : y = h0 := by simpa using hh0
    subst hy
    simp [hw y (by simp)]

lemma tokens_append_ws {w : List Char} (x : List Char)
    (hw : ∀ c ∈ w, isJsWhitespace c = true) : tokens (x ++ w) = tokens x := by
  have H : ∀ (n : Nat) (x : List Char), x.length ≤ n →
      tokens (x ++ w) = tokens x := by
    intro n
    induction n with
    | zero =>
      intro x hx
      have hx0 : x = [] := List.length_eq_zero.mp (Nat.le_zero.mp hx)
      subst hx0
      rw [List.nil_append, tokens_all_ws hw, tokens_nil]
    | succ n ih =>
      intro x hx
      cases x with
      | nil => rw [List.nil_append, tokens_all_ws hw, tokens_nil]
      | cons c rest =>
        by_cases hc : isJsWhitespace c = true
        · rw [List.cons_append, tokens_cons_ws hc, tokens_cons_ws hc]
          exact ih rest (Nat.le_of_succ_le_succ (by simpa using hx))
        · have hc' : isJsWhitespace c = false := by simpa using hc
          rw [List.cons_append, tokens_cons_nonws hc', tokens_cons_nonws hc',
            takeWhile_append_headFalse (ws_head_false hw),
            dropWhile_append_headFalse (ws_head_false hw)]
          congr 1
          exact ih _ (le_trans (List.dropWhile_suffix _).length_le
            (Nat.le_of_succ_le_succ (by simpa using hx)))
  exact H x.length x le_rfl

lemma collapseWS_nonws_append {t : List Char} (x : List Char)
    (ht : ∀ c ∈ t, isJsWhitespace c = false) :
    collapseWS (t ++ x) = t ++ collapseWS x := by
  induction t with
  | nil => rfl
  | cons a t ih =>
    have ha : isJsWhitespace a = false := ht a (by simp)
    cases htx : t ++ x with
    | nil =>
      have ht0 : t = [] := by
        cases t with
        | nil => rfl
        | cons b u => simp at htx
      have hx0 : x = [] := by
        subst ht0
        simpa using htx
      subst ht0
      subst hx0
      simp [collapseWS, ha]
    | cons b y =>
      have step : collapseWS (a :: b :: y) = a :: collapseWS (b :: y) := by
        simp [collapseWS, ha]
      rw [List.cons_append, htx, step, ← htx,
        ih fun d hd => ht d (by simp [hd])]
      rfl

lemma collapseWS_ws_skip {w : List Char} {b : Char} (x : List Char)
    (hw : ∀ c ∈ w, isJsWhitespace c = true) (hwne : w ≠ [])
    (hb : isJsWhitespace b = false) :
    collapseWS (w ++ b :: x) = ' ' :: collapseWS (b :: x) := by
  induction w with
  | nil => exact absurd rfl hwne
  | cons a w ih =>
    have ha : isJsWhitespace a = true := hw a (by simp)
    cases w with
    | nil => simp [collapseWS, ha, hb]
    | cons a₂ w₂ =>
      have ha₂ : isJsWhitespace a₂ = true := hw a₂ (by simp)
      have step : collapseWS (a :: a₂ :: (w₂ ++ b :: x)) =
          collapseWS (a₂ :: (w₂ ++ b :: x)) := by
        simp [collapseWS, ha, ha₂]
      calc collapseWS ((a :: a₂ :: w₂) ++ b :: x)
          = collapseWS (a₂ :: (w₂ ++ b :: x)) := step
        _ = ' ' :: collapseWS (b :: x) :=
            ih (fun d hd => hw d (by simp at hd ⊢; tauto)) (by simp)

lemma joinSp_cons_ne_nil {t : List Char} {ts : List (List Char)}
    (h : ts ≠ []) : joinSp (t :: ts) = t ++ ' ' :: joinSp ts := by
  cases ts with
  | nil => exact absurd rfl h
  | cons u us => rfl

lemma endsWS_append {w : List Char} (x : List Char) (hw : w ≠ []) :
    endsWS (x ++ w) = endsWS w := by
  unfold endsWS
  rw [List.getLast?_append_of_ne_nil x hw]

lemma endsWS_of_all_nonws {l : List Char}
    (h : ∀ c ∈ l, isJsWhitespace c = false) : endsWS l = false := by
  unfold endsWS
  cases hg : l.getLast? with
  | none => rfl
  | some c => exact h c (List.mem_of_mem_getLast? hg)

lemma endsWS_of_all_ws {l : List Char} (hne : l ≠ [])
    (h : ∀ c ∈ l, isJsWhitespace c = true) : endsWS l = true := by
  unfold endsWS
  cases hg : l.getLast? with
  | none =>
    rw [List.getLast?_eq_none_iff] at hg
    exact absurd hg hne
  | some c => exact h c (List.mem_of_mem_getLast? hg)

lemma collapseWS_all_ws {w : List Char} (hne : w ≠ [])
    (hw : ∀ c ∈ w, isJsWhitespace c = true) : collapseWS w = [' '] := by
  induction w with
  | nil => exact absurd rfl hne
  | cons a w ih =>
    have ha : isJsWhitespace a = true := hw a (by simp)
    cases w with
    | nil => simp [collapseWS, ha]
    | cons a₂ w₂ =>
      have ha₂ : isJsWhitespace a₂ = true := hw a₂ (by simp)
      have step : collapseWS (a :: a₂ :: w₂) = collapseWS (a₂ :: w₂) := by
        simp [collapseWS, ha, ha₂]
      rw [step]
      exact ih (by simp) fun d hd => hw d (by simp at hd ⊢; tauto)

lemma collapseWS_eq_joinSp_aux :
    ∀ (n : Nat) (l : List Char), l.length ≤ n → headNotWS l →
      collapseWS l = joinSp (tokens l) ++ (if endsWS l then [' '] else []) := by
  intro n
  induction n with
  | zero =>
    intro l hl _
    have hl0 : l = [] := List.length_eq_zero.mp (Nat.le_zero.mp hl)
    subst hl0
    simp [collapseWS, tokens_nil, joinSp, endsWS]
  | succ n ih =>
    intro l hl hhead
    cases l with
    | nil => simp [collapseWS, tokens_nil, joinSp, endsWS]
    | cons c rest =>
      have hc : isJsWhitespace c = false := hhead
      have hrest : rest.takeWhile (fun x => !isJsWhitespace x) ++
          rest.dropWhile (fun x => !isJsWhitespace x) = rest :=
        List.takeWhile_append_dropWhile _ _
      have htWall : ∀ x ∈ rest.takeWhile (fun x => !isJsWhitespace x),
          isJsWhitespace x = false := by
        intro x hx
        simpa using List.mem_takeWhile_imp hx
      have hcons : ∀ x ∈ c :: rest.takeWhile (fun x => !isJsWhitespace x),
          isJsWhitespace x = false := by
        intro x hx
        rcases List.mem_cons.mp hx with h | h
        · subst h; exact hc
        · exact htWall x h
      have hLHS : collapseWS (c :: rest) =
          (c :: rest.takeWhile (fun x => !isJsWhitespace x)) ++
            collapseWS (rest.dropWhile (fun x => !isJsWhitespace x)) := by
        conv_lhs => rw [← hrest]
        rw [← List.cons_append]
        exact collapseWS_nonws_append _ hcons
      rw [hLHS, tokens_cons_nonws hc]
      rcases hdW : rest.dropWhile (fun x => !isJsWhitespace x) with _ | ⟨w₀, dW'⟩
      · rw [tokens_nil]
        have hr : rest = rest.takeWhile (fun x => !isJsWhitespace x) := by
          conv_lhs => rw [← hrest]
          rw [hdW, List.append_nil]
        have hends : endsWS (c :: rest) = false := by
          conv_lhs => rw [hr]
          exact endsWS_of_all_nonws hcons
        rw [hends]
        simp [joinSp, collapseWS]
      · have hw₀ : isJsWhitespace w₀ = true := by
          simpa using dropWhile_head_false hdW
        have hdsplit : (w₀ :: dW').takeWhile isJsWhitespace ++
            (w₀ :: dW').dropWhile isJsWhitespace = w₀ :: dW' :=
          List.takeWhile_append_dropWhile _ _
        have hwRunAll : ∀ x ∈ (w₀ :: dW').takeWhile isJsWhitespace,
            isJsWhitespace x = true := fun x hx => List.mem_takeWhile_imp hx
        have hwRunNe : (w₀ :: dW').takeWhile isJsWhitespace ≠ [] := by
          simp [List.takeWhile_cons, hw₀]
        rcases hrR : (w₀ :: dW').dropWhile isJsWhitespace with _ | ⟨b, rR'⟩
        · have hdWall : ∀ x ∈ w₀ :: dW', isJsWhitespace x = true :=
            List.dropWhile_eq_nil_iff.mp hrR
          have hcollapse : collapseWS (w₀ :: dW') = [' '] :=
            collapseWS_all_ws (by simp) hdWall
          have htokdW : tokens (w₀ :: dW') = [] := tokens_all_ws hdWall
          have hends : endsWS (c :: rest) = true := by
            have hshape : (c :: rest : List Char) =
                (c :: rest.takeWhile (fun x => !isJsWhitespace x)) ++
                  (w₀ :: dW') := by
              conv_lhs => rw [← hrest]
              rw [hdW, List.cons_append]
            rw [hshape, endsWS_append _ (by simp)]
            exact endsWS_of_all_ws (by simp) hdWall
          rw [hcollapse, htokdW, hends]
          simp [joinSp]
        · have hb : isJsWhitespace b = false := dropWhile_head_false hrR
          have hskip : collapseWS (w₀ :: dW') = ' ' :: collapseWS (b :: rR') := by
            conv_lhs => rw [← hdsplit, hrR]
            exact collapseWS_ws_skip _ hwRunAll hwRunNe hb
          have htokdW : tokens (w₀ :: dW') = tokens (b :: rR') := by
            conv_lhs => rw [← hdsplit, hrR]
            exact tokens_ws_append _ hwRunAll
          have hlen : (b :: rR').length ≤ n := by
            have h1 : (b :: rR').length ≤ (w₀ :: dW').length := by
              rw [← hrR]
              exact (List.dropWhile_suffix _).length_le
            have h2 : (w₀ :: dW').length ≤ rest.length := by
              rw [← hdW]
              exact (List.dropWhile_suffix _).length_le
            have h3 : rest.length + 1 ≤ n + 1 := by simpa using hl
            simp only [List.length_cons] at h1 h2 ⊢
            omega
          have hih := ih (b :: rR') hlen hb
          have hends : endsWS (c :: rest) = endsWS (b :: rR') := by
            have hshape : (c :: rest : List Char) =
                (c :: (rest.takeWhile (fun x => !isJsWhitespace x) ++
                  (w₀ :: dW').takeWhile isJsWhitespace)) ++ (b :: rR') := by
              conv_lhs => rw [← hrest]
              rw [hdW]
              conv_lhs => rw [← hdsplit, hrR]
              simp [List.cons_append, List.append_assoc]
            rw [hshape, endsWS_append _ (by simp)]
          rw [hskip, htokdW, hih, hends,
            joinSp_cons_ne_nil (by rw [tokens_cons_nonws hb]; simp)]
          simp [List.append_assoc]

lemma jsTrim_decomp (l : List Char) :
    ∃ w, l.dropWhile isJsWhitespace = jsTrim l ++ w ∧
      ∀ c ∈ w, isJsWhitespace c = true := by
  refine ⟨((l.dropWhile isJsWhitespace).reverse.takeWhile isJsWhitespace).reverse,
    ?_, ?_⟩
  · conv_lhs =>
      rw [← List.reverse_reverse (List.dropWhile isJsWhitespace l),
        ← List.takeWhile_append_dropWhile isJsWhitespace
          (List.dropWhile isJsWhitespace l).reverse]
    rw [List.reverse_append]
    rfl
  · intro c hc
    exact List.mem_takeWhile_imp (List.mem_reverse.mp hc)

lemma headNotWS_jsTrim (l : List Char) : headNotWS (jsTrim l) := by
  obtain ⟨w, hw, _⟩ := jsTrim_decomp l
  cases h : jsTrim l with
  | nil => trivial
  | cons a t =>
    have hy : l.dropWhile isJsWhitespace = a :: (t ++ w) := by
      rw [hw, h, List.cons_append]
    exact dropWhile_head_false hy

lemma endsWS_jsTrim (l : List Char) : endsWS (jsTrim l) = false := by
  unfold jsTrim endsWS
  rw [List.getLast?_reverse]
  cases hz : (l.dropWhile isJsWhitespace).reverse.dropWhile isJsWhitespace with
  | nil => rfl
  | cons b t =>
    simpa using dropWhile_head_false hz

lemma tokens_jsTrim (l : List Char) : tokens (jsTrim l) = tokens l := by
  obtain ⟨w, hw, hwall⟩ := jsTrim_decomp l
  have h1 : tokens l = tokens (l.dropWhile isJsWhitespace) := by
    conv_lhs => rw [← List.takeWhile_append_dropWhile isJsWhitespace l]
    exact tokens_ws_append _ fun c hc => List.mem_takeWhile_imp hc
  rw [h1, hw, tokens_append_ws _ hwall]

lemma normalizeList_eq (l : List Char) :
    collapseWS (jsTrim l) = joinSp (tokens l) := by
  have h := collapseWS_eq_joinSp_aux (jsTrim l).length (jsTrim l) le_rfl
    (headNotWS_jsTrim l)
  rw [endsWS_jsTrim, if_neg (by simp), List.append_nil, tokens_jsTrim] at h
  exact h

lemma tokens_wf :
    ∀ (l t : List Char), t ∈ tokens l →
      t ≠ [] ∧ ∀ c ∈ t, isJsWhitespace c = false := by
  have H : ∀ (n : Nat) (l : List Char), l.length ≤ n → ∀ t ∈ tokens l,
      t ≠ [] ∧ ∀ c ∈ t, isJsWhitespace c = false := by
    intro n
    induction n with
    | zero =>
      intro l hl t ht
      have hl0 : l = [] := List.length_eq_zero.mp (Nat.le_zero.mp hl)
      subst hl0
      rw [tokens_nil] at ht
      simp at ht
    | succ n ih =>
      intro l hl t ht
      cases l with
      | nil =>
        rw [tokens_nil] at ht
        simp at ht
      | cons c rest =>
        by_cases hc : isJsWhitespace c = true
        · rw [tokens_cons_ws hc] at ht
          exact ih rest (Nat.le_of_succ_le_succ (by simpa using hl)) t ht
        · have hc' : isJsWhitespace c = false := by simpa using hc
          rw [tokens_cons_nonws hc'] at ht
          rcases List.mem_cons.mp ht with h | h
          · subst h
            refine ⟨by simp, ?_⟩
            intro d hd
            rcases List.mem_cons.mp hd with h | h
            · subst h; exact hc'
            · simpa using List.mem_takeWhile_imp h
          · exact ih _ (le_trans (List.dropWhile_suffix _).length_le
              (Nat.le_of_succ_le_succ (by simpa using hl))) t h
  exact fun l => H l.length l le_rfl

lemma tokens_joinSp :
    ∀ (ts : List (List Char)),
      (∀ t ∈ ts, t ≠ [] ∧ ∀ c ∈ t, isJsWhitespace c = false) →
      tokens (joinSp ts) = ts := by
  intro ts
  induction ts with
  | nil => intro _; exact tokens_nil
  | cons t ts ih =>
    intro h
    obtain ⟨tne, tnon⟩ := h t (by simp)
    obtain ⟨a, t', hat⟩ : ∃ a t', t = a :: t' := by
      cases t with
      | nil => exact absurd rfl tne
      | cons a t' => exact ⟨a, t', rfl⟩
    subst hat
    have hanon : isJsWhitespace a = false := tnon a (by simp)
    have ht'non : ∀ x ∈ t', (fun x => !isJsWhitespace x) x = true := by
      intro x hx
      simp [tnon x (by simp [hx])]
    cases ts with
    | nil =>
      show tokens (a :: t') = [a :: t']
      rw [tokens_cons_nonws hanon, List.takeWhile_eq_self_iff.mpr ht'non,
        List.dropWhile_eq_nil_iff.mpr ht'non, tokens_nil]
    | cons u us =>
      show tokens ((a :: t') ++ ' ' :: joinSp (u :: us)) = (a :: t') :: u :: us
      rw [List.cons_append, tokens_cons_nonws hanon,
        takeWhile_append_all _ ht'non, dropWhile_append_all _ ht'non]
      have hsp : List.takeWhile (fun x => !isJsWhitespace x)
          (' ' :: joinSp (u :: us)) = [] := by
        simp [List.takeWhile_cons, isJsWhitespace]
      have hsp2 : List.dropWhile (fun x => !isJsWhitespace x)
          (' ' :: joinSp (u :: us)) = ' ' :: joinSp (u :: us) := by
        simp [List.dropWhile_cons, isJsWhitespace]
      rw [hsp, hsp2, List.append_nil,
        tokens_cons_ws (by simp [isJsWhitespace]), ih fun x hx => h x (by simp [hx])]

/-- Two strings have equal whitespace normalizations exactly when they
carry the same non-whitespace tokens in the same order, i.e. when they
differ only in leading/trailing whitespace and in the lengths of internal
whitespace runs. -/
lemma normalizeText_eq_iff (s t : String) :
    normalizeText s = normalizeText t ↔ tokens s.toList = tokens t.toList := by
  have hs : normalizeText s = (joinSp (tokens s.toList)).asString := by
    rw [normalizeText, normalizeList_eq]
  have ht : normalizeText t = (joinSp (tokens t.toList)).asString := by
    rw [normalizeText, normalizeList_eq]
  constructor
  · intro h
    rw [hs, ht] at h
    have h' : joinSp (tokens s.toList) = joinSp (tokens t.toList) := by
      have := congrArg String.toList h
      simpa using this
    calc tokens s.toList = tokens (joinSp (tokens s.toList)) :=
          (tokens_joinSp _ fun u hu => tokens_wf _ u hu).symm
      _ = tokens (joinSp (tokens t.toList)) := by rw [h']
      _ = tokens t.toList := tokens_joinSp _ fun u hu => tokens_wf _ u hu
  · intro h
    rw [hs, ht, h]

lemma migrateLegacyFrom_length (gen : Nat → String) (k : Nat)
    (es : List (Nat × String)) :
    (migrateLegacyFrom gen k es).length = es.length := by
  induction es generalizing k with
  | nil => rfl
  | cons p rest ih => simp [migrateLegacyFrom, ih]

lemma migrateLegacyFrom_get (gen : Nat → String) (k : Nat)
    (es : List (Nat × String)) (i : Nat) (h : i < es.length) :
    (migrateLegacyFrom gen k es).get
        ⟨i, by rw [migrateLegacyFrom_length]; exact h⟩ =
      mkMigrated (gen (k + i)) (es.get ⟨i, h⟩) := by
  induction es generalizing k i with
  | nil => exact absurd h (by simp)
  | cons p rest ih =>
    cases i with
    | zero => rfl
    | succ j =>
      have hj : j < rest.length := Nat.lt_of_succ_lt_succ h
      have := ih (k + 1) j hj
      simpa [migrateLegacyFrom, Nat.add_assoc, Nat.add_comm 1 j] using this

/-- C1: for a span annotation, `isCommentStillValid` is true exactly when
the anchor's end line is inside the document and the text extracted at
the anchor's coordinates, normalized by trimming and collapsing
whitespace runs, equals the stored captured text normalized the same
way. -/
theorem claimC1 (c : Comment) (doc : List String) (sel : String)
    (hsel : c.range.selectedText = some sel)
    (hlex : lexLe (c.range.startLine, c.range.startCharacter)
        (c.range.endLine, c.range.endCharacter) = true) :
    isCommentStillValid c doc = true ↔
      (c.range.endLine < doc.length ∧
       normalizeText (getText doc (c.range.startLine, c.range.startCharacter)
           (c.range.endLine, c.range.endCharacter)) = normalizeText sel) := by
  by_cases hend : doc.length ≤ c.range.endLine
  · simp [isCommentStillValid, normRange, hlex, hsel, hend, Nat.not_lt.mpr hend]
  · simp [isCommentStillValid, normRange, hlex, hsel, hend, Nat.not_le.mp hend,
      beq_iff_eq]

/-- Witness for C1 at the concrete scenario of the spec: the span
`"foo()"` at columns 2-7 of line 0. -/
theorem claimC1_witness :
    isCommentStillValid
        { id := "1", text := "check null", timestamp := some 5,
          range := { startLine := 0, startCharacter := 2, endLine := 0,
                     endCharacter := 7, selectedText := some "foo()" } }
        ["  foo()"] = true ↔
      (0 < [("  foo()" : String)].length ∧
       normalizeText (getText ["  foo()"] (0, 2) (0, 7)) =
         normalizeText "foo()") :=
  claimC1 _ ["  foo()"] "foo()" rfl (by decide)

/-- C3: the legacy record on `/b.ts` line 3 with text `"fixme"` migrates
to exactly one annotation anchored at line 2, columns 0 to the sentinel,
with no captured text and no timestamp; in general entry `i` of a legacy
mapping becomes exactly one such comment at the 0-based line with a
freshly generated id. -/
theorem claimC3 :
    (∀ gen : Nat → String,
      loadStore gen [("/b.ts", RawEntry.legacy [(3, "fixme")])] =
        [("/b.ts",
          [{ id := gen 0, text := "fixme", timestamp := none,
             range := { startLine := 2, startCharacter := 0, endLine := 2,
                        endCharacter := maxSafeInteger,
                        selectedText := none } }])]) ∧
    (∀ (gen : Nat → String) (es : List (Nat × String)),
      (migrateLegacy gen es).length = es.length ∧
      ∀ (i : Nat) (h : i < es.length),
        (migrateLegacy gen es).get
            ⟨i, by rw [migrateLegacy, migrateLegacyFrom_length]; exact h⟩ =
          { id := gen i, text := (es.get ⟨i, h⟩).2, timestamp := none,
            range := { startLine := (es.get ⟨i, h⟩).1 - 1, startCharacter := 0,
                       endLine := (es.get ⟨i, h⟩).1 - 1,
                       endCharacter := maxSafeInteger, selectedText := none } }) := by
  refine ⟨fun gen => rfl, fun gen es => ⟨migrateLegacyFrom_length gen 0 es, ?_⟩⟩
  intro i h
  have := migrateLegacyFrom_get gen 0 es i h
  simpa [migrateLegacy, mkMigrated] using this

/-- Witness for C3's general part at a concrete legacy mapping. -/
theorem claimC3_witness :
    (migrateLegacy (fun n => toString n) [(3, "fixme"), (7, "todo")]).get
        ⟨1, by decide⟩ =
      { id := toString 1, text := "todo", timestamp := none,
        range := { startLine := 6, startCharacter := 0, endLine := 6,
                   endCharacter := maxSafeInteger, selectedText := none } } :=
  (claimC3.2 (fun n => toString n) [(3, "fixme"), (7, "todo")]).2 1 (by decide)

lemma lexLe_fst_le {a b : Nat × Nat} (h : lexLe a b = true) : a.1 ≤ b.1 := by
  simp only [lexLe, Bool.or_eq_true, Bool.and_eq_true, decide_eq_true_eq] at h
  rcases h with h | h
  · exact le_of_lt h
  · exact le_of_eq h.1

/-- C4 counterexample: a line annotation (no captured text) whose
`endLine` exceeds the document's last line while its `startLine` is still
in bounds is reported invalid, although the claim's biconditional says it
should be valid. -/
theorem claimC4_counterexample :
    (({ id := "a", text := "t", timestamp := none,
        range := { startLine := 0, startCharacter := 0, endLine := 5,
                   endCharacter := 0, selectedText := none } } :
        Comment).range.selectedText = none ∧
      ({ id := "a", text := "t", timestamp := none,
         range := { startLine := 0, startCharacter := 0, endLine := 5,
                    endCharacter := 0, selectedText := none } } :
        Comment).range.startLine < (["x"] : List String).length) ∧
    isCommentStillValid
        { id := "a", text := "t", timestamp := none,
          range := { startLine := 0, startCharacter := 0, endLine := 5,
                     endCharacter := 0, selectedText := none } }
        ["x"] = false := by decide

/-- C4 (amended): for a line annotation, `isCommentStillValid` is true
iff both the anchor's `endLine` and `startLine` are within the document's
line bounds (for the line anchors the system creates, which span a single
line, this is just `startLine` in bounds); the result depends only on the
number of lines, never on line content, and it is false whenever the
document has fewer than `startLine + 1` lines. -/
theorem claimC4 (c : Comment) (doc : List String)
    (hsel : c.range.selectedText = none)
    (hlex : lexLe (c.range.startLine, c.range.startCharacter)
        (c.range.endLine, c.range.endCharacter) = true) :
    (isCommentStillValid c doc = true ↔
      (c.range.endLine < doc.length ∧ c.range.startLine < doc.length)) ∧
    (∀ d₂ : List String, d₂.length = doc.length →
      isCommentStillValid c d₂ = isCommentStillValid c doc) ∧
    (doc.length ≤ c.range.startLine → isCommentStillValid c doc = false) := by
  have hline : c.range.startLine ≤ c.range.endLine := lexLe_fst_le hlex
  refine ⟨?_, ?_, ?_⟩
  · by_cases hend : doc.length ≤ c.range.endLine
    · simp [isCommentStillValid, normRange, hlex, hsel, hend, Nat.not_lt.mpr hend]
    · simp [isCommentStillValid, normRange, hlex, hsel, hend, Nat.not_le.mp hend]
  · intro d₂ hd
    simp [isCommentStillValid, normRange, hlex, hsel, hd]
  · intro hge
    have hend : doc.length ≤ c.range.endLine := le_trans hge hline
    simp [isCommentStillValid, normRange, hlex, hsel, hend]

/-- Witness for the amended C4 at a concrete single-line anchor. -/
theorem claimC4_witness :
    isCommentStillValid
        { id := "a", text := "t", timestamp := none,
          range := { startLine := 0, startCharacter := 0, endLine := 0,
                     endCharacter := 1, selectedText := none } }
        ["x"] = true :=
  (claimC4 _ ["x"] rfl (by decide)).1.mpr (by decide)

/-- C8 counterexample: inserting one blank line inside the span (leaving
every non-whitespace character unchanged) flips `isCommentStillValid`
from true to false, because the stored coordinates no longer cover the
shifted content — the claim says such an edit keeps the annotation
valid. -/
theorem claimC8_counterexample :
    isCommentStillValid
        { id := "a", text := "t", timestamp := none,
          range := { startLine := 0, startCharacter := 0, endLine := 1,
                     endCharacter := 3, selectedText := some "foo\nbar" } }
        ["foo", "bar"] = true ∧
    isCommentStillValid
        { id := "a", text := "t", timestamp := none,
          range := { startLine := 0, startCharacter := 0, endLine := 1,
                     endCharacter := 3, selectedText := some "foo\nbar" } }
        ["foo", "", "bar"] = false := by decide

/-- C8 (amended): the staleness comparison itself is
whitespace-insensitive — for a span annotation with `endLine` in bounds,
`isCommentStillValid` is true exactly when the text currently at the
anchor's (fixed) coordinates has the same non-whitespace tokens as the
stored text, i.e. differs from it only in leading/trailing whitespace and
in the lengths of internal whitespace runs; whitespace edits that shift
content out of the fixed coordinates can still invalidate the
annotation. -/
theorem claimC8 (c : Comment) (doc : List String) (sel : String)
    (hsel : c.range.selectedText = some sel)
    (hlex : lexLe (c.range.startLine, c.range.startCharacter)
        (c.range.endLine, c.range.endCharacter) = true) :
    isCommentStillValid c doc = true ↔
      (c.range.endLine < doc.length ∧
       tokens (getText doc (c.range.startLine, c.range.startCharacter)
           (c.range.endLine, c.range.endCharacter)).toList =
         tokens sel.toList) := by
  by_cases hend : doc.length ≤ c.range.endLine
  · simp [isCommentStillValid, normRange, hlex, hsel, hend, Nat.not_lt.mpr hend]
  · have hiff := normalizeText_eq_iff
      (getText doc (c.range.startLine, c.range.startCharacter)
        (c.range.endLine, c.range.endCharacter)) sel
    simp [isCommentStillValid, normRange, hlex, hsel, hend, Nat.not_le.mp hend,
      beq_iff_eq, hiff]

/-- Witness for the amended C8: the extracted text `"foo\nbar"` and the
stored text `"foo  bar"` differ only in whitespace, so the comparison
accepts them. -/
theorem claimC8_witness :
    isCommentStillValid
        { id := "a", text := "t", timestamp := none,
          range := { startLine := 0, startCharacter := 0, endLine := 1,
                     endCharacter := 3, selectedText := some "foo  bar" } }
        ["foo", "bar"] = true :=
  (claimC8 _ ["foo", "bar"] "foo  bar" rfl (by decide)).mpr (by decide)

/-- C7: migration passes already-migrated (array-shaped) document values
through unchanged, so running the migrator twice returns the input
unchanged, and each legacy entry yields exactly one new-format
annotation. -/
theorem claimC7 :
    (∀ (gen : Nat → String) (cs : List Comment),
      migrateRaw gen (RawEntry.arr cs) = cs) ∧
    (∀ (gen gen' : Nat → String) (parsed : List (String × RawEntry)),
      loadStore gen'
          ((loadStore gen parsed).map fun p => (p.1, RawEntry.arr p.2)) =
        loadStore gen parsed) ∧
    (∀ (gen : Nat → String) (es : List (Nat × String)),
      (migrateLegacy gen es).length = es.length) := by
  refine ⟨fun _ _ => rfl, fun gen gen' parsed => ?_,
    fun gen es => migrateLegacyFrom_length gen 0 es⟩
  induction parsed with
  | nil => rfl
  | cons p rest ih => simp [loadStore, migrateRaw]

lemma jsHashStep_eq (a : Int) (c : Nat) :
    jsHashStep a c = jsToInt32 (31 * a + c) := by
  simp only [jsHashStep, jsToInt32]
  split_ifs <;> omega

lemma jsHash_eq_specPolyHash (s : String) : jsHash s = specPolyHash s := by
  have hf : (fun (a : Int) (ch : Char) => jsHashStep a ch.toNat) =
      fun (a : Int) (ch : Char) => jsToInt32 (31 * a + ch.toNat) := by
    funext a ch
    exact jsHashStep_eq a ch.toNat
  rw [jsHash, specPolyHash, hf]

/-- C6: the sidebar hash of each shuffle key (`comment.id + fileName`)
computed by `((a << 5) - a) + code` with `a & a` wrapping coincides with
the polynomial rolling hash `31 * h + code` wrapped to signed 32 bits at
every step, and the shuffle's swap partner at index `i` is
`abs(hash) % (i + 1)` for the element currently at index `i`. -/
theorem claimC6 :
    (∀ s : String, jsHash s = specPolyHash s) ∧
    (∀ (l : List Entry) (i : Nat) (h : i < l.length),
      fyStep l i = swapList l i
        ((jsHash ((l.get ⟨i, h⟩).comment.id ++ (l.get ⟨i, h⟩).fileName)).natAbs %
          (i + 1))) := by
  refine ⟨jsHash_eq_specPolyHash, ?_⟩
  intro l i h
  rw [fyStep, fyKeyAt, shuffleKey, List.getD_eq_getElem l default h]
  rfl

/-- Witness for the shuffle-index component of C6 at a concrete
one-element list. -/
theorem claimC6_witness :
    fyStep [demoEntry] 0 =
      swapList [demoEntry] 0 ((jsHash ("a" ++ "f")).natAbs % (0 + 1)) :=
  claimC6.2 [demoEntry] 0 (by decide)

lemma sortLe_trans : ∀ a b c : Entry,
    decide (getTime b ≤ getTime a) = true →
    decide (getTime c ≤ getTime b) = true →
    decide (getTime c ≤ getTime a) = true := by
  intro a b c hab hbc
  simp only [decide_eq_true_eq] at *
  omega

lemma sortLe_total : ∀ a b : Entry,
    (decide (getTime b ≤ getTime a) || decide (getTime a ≤ getTime b)) = true := by
  intro a b
  simp only [Bool.or_eq_true, decide_eq_true_eq]
  omega

lemma sortTimedDesc_perm (l : List Entry) : (sortTimedDesc l).Perm l :=
  List.mergeSort_perm l _

lemma sortTimedDesc_sorted (l : List Entry) :
    List.Pairwise (fun a b => getTime b ≤ getTime a) (sortTimedDesc l) := by
  have h := List.sorted_mergeSort sortLe_trans sortLe_total l
  exact h.imp fun hab => by simpa using hab

lemma sortTimedDesc_filter_time (l : List Entry) (t : Nat) :
    (sortTimedDesc l).filter (fun e => getTime e == t) =
      l.filter (fun e => getTime e == t) := by
  have hsub : (l.filter fun e => getTime e == t).Sublist l := List.filter_sublist l
  have hpair : List.Pairwise (fun a b => decide (getTime b ≤ getTime a) = true)
      (l.filter fun e => getTime e == t) := by
    apply List.pairwise_of_forall_mem_list
    intro a ha b hb
    have ha' : getTime a = t := by simpa using (List.mem_filter.mp ha).2
    have hb' : getTime b = t := by simpa using (List.mem_filter.mp hb).2
    simp [ha', hb']
  have hstable : (l.filter fun e => getTime e == t).Sublist (sortTimedDesc l) :=
    List.sublist_mergeSort sortLe_trans sortLe_total hpair hsub
  have hsub2 : (l.filter fun e => getTime e == t).Sublist
      ((sortTimedDesc l).filter fun e => getTime e == t) := by
    have := hstable.filter (fun e => getTime e == t)
    rwa [List.filter_eq_self.mpr
      (fun a ha => (List.mem_filter.mp ha).2)] at this
  have hlen : (l.filter fun e => getTime e == t).length =
      ((sortTimedDesc l).filter fun e => getTime e == t).length :=
    (((sortTimedDesc_perm l).filter _).length_eq).symm
  exact (hsub2.eq_of_length hlen).symm

lemma sortTimedDesc_head_max (l : List Entry) (x : Entry)
    (hx : (sortTimedDesc l).head? = some x) :
    ∀ y ∈ l, getTime y ≤ getTime x := by
  intro y hy
  have hmem : y ∈ sortTimedDesc l := ((sortTimedDesc_perm l).mem_iff).mpr hy
  have hsorted := sortTimedDesc_sorted l
  cases hs : sortTimedDesc l with
  | nil => simp [hs] at hx
  | cons a rest =>
    have hax : a = x := by simpa [hs] using hx
    subst hax
    rw [hs] at hmem hsorted
    rcases List.mem_cons.mp hmem with h | h
    · exact le_of_eq (by rw [h])
    · exact (List.pairwise_cons.mp hsorted).1 y h

lemma interleave_perm : ∀ (ts ns : List Entry), (interleave ts ns).Perm (ts ++ ns) := by
  intro ts
  induction ts with
  | nil =>
    intro ns
    cases ns with
    | nil => exact List.Perm.refl _
    | cons n ns => exact List.Perm.refl _
  | cons t ts ih =>
    intro ns
    show (t :: (ns.take 2 ++ interleave ts (ns.drop 2))).Perm (t :: ts ++ ns)
    apply List.Perm.cons
    have h2 : (ns.take 2 ++ interleave ts (ns.drop 2)).Perm
        (ns.take 2 ++ (ts ++ ns.drop 2)) := List.Perm.append_left _ (ih _)
    have h4 : ((ns.take 2 ++ ts) ++ ns.drop 2).Perm
        ((ts ++ ns.take 2) ++ ns.drop 2) :=
      List.Perm.append_right _ List.perm_append_comm
    have h7 : (ts ++ ns.take 2) ++ ns.drop 2 = ts ++ ns := by
      rw [List.append_assoc, List.take_append_drop]
    have h8 : (ns.take 2 ++ (ts ++ ns.drop 2)).Perm (ts ++ ns) := by
      rw [← List.append_assoc]
      exact h7 ▸ h4
    exact h2.trans h8

lemma swapList_perm (l : List Entry) (i j : Nat) (hi : i < l.length)
    (hj : j < l.length) : (swapList l i j).Perm l := by
  rw [List.perm_iff_count]
  intro a
  rw [swapList, List.getD_eq_getElem l default hi, List.getD_eq_getElem l default hj]
  have hi' : i < (l.set i l[j]).length := by simpa using hi
  have hj' : j < (l.set i l[j]).length := by simpa using hj
  rw [List.count_set l[i] a (l.set i l[j]) j hj',
    List.count_set l[j] a l i hi]
  have hread : (l.set i l[j])[j] = l[j] := by
    by_cases hij : i = j
    · subst hij
      exact List.getElem_set_self hi'
    · exact List.getElem_set_ne hij hj'
  rw [hread]
  have hcount : (if (l[i] == a) = true then 1 else 0) ≤ List.count a l := by
    split_ifs with h
    · have : l[i] ∈ l := List.getElem_mem hi
      have : a ∈ l := by
        have := beq_iff_eq.mp h
        rwa [← this]
      exact List.count_pos_iff.mpr this
    · exact Nat.zero_le _
  omega

lemma fyStep_length (l : List Entry) (i : Nat) : (fyStep l i).length = l.length := by
  simp [fyStep, swapList]

lemma fyStep_perm (l : List Entry) (i : Nat) (hi : i < l.length) :
    (fyStep l i).Perm l := by
  rw [fyStep]
  exact swapList_perm l i _ hi
    (lt_of_le_of_lt (Nat.le_of_lt_succ (Nat.mod_lt _ (Nat.succ_pos i))) hi)

lemma fyGo_perm : ∀ (i : Nat) (l : List Entry), i < l.length →
    (fyGo l i).Perm l := by
  intro i
  induction i with
  | zero => intro l _; exact List.Perm.refl _
  | succ n ih =>
    intro l hl
    show (fyGo (fyStep l (n + 1)) n).Perm l
    have h1 : (fyStep l (n + 1)).Perm l := fyStep_perm l (n + 1) hl
    have h2 : n < (fyStep l (n + 1)).length := by
      rw [fyStep_length]
      omega
    exact (ih _ h2).trans h1

lemma fyShuffle_perm (l : List Entry) : (fyShuffle l).Perm l := by
  cases l with
  | nil => exact List.Perm.refl _
  | cons x xs =>
    exact fyGo_perm _ _ (by simp)

/-- C2: the sidebar sequence is the interleave of the descending-sorted
timestamped comments with the deterministically shuffled rest; the sort
is descending in timestamp and keeps the original relative order of
equal timestamps; and whenever a timestamped comment exists, the head of
the sequence is one with maximal timestamp. -/
theorem claimC2 (st : Store) :
    (sequenceEntries st =
      interleave (sortTimedDesc ((allEntries st).filter hasTime))
        (fyShuffle ((allEntries st).filter fun e => !hasTime e))) ∧
    List.Pairwise (fun a b => getTime b ≤ getTime a)
      (sortTimedDesc ((allEntries st).filter hasTime)) ∧
    (∀ t : Nat,
      (sortTimedDesc ((allEntries st).filter hasTime)).filter
          (fun e => getTime e == t) =
        ((allEntries st).filter hasTime).filter fun e => getTime e == t) ∧
    ((allEntries st).filter hasTime ≠ [] →
      ∃ x, (sequenceEntries st).head? = some x ∧ hasTime x = true ∧
        ∀ y ∈ (allEntries st).filter hasTime, getTime y ≤ getTime x) := by
  refine ⟨rfl, sortTimedDesc_sorted _, fun t => sortTimedDesc_filter_time _ t, ?_⟩
  intro hne
  have hne' : sortTimedDesc ((allEntries st).filter hasTime) ≠ [] := by
    intro h0
    apply hne
    have hp := sortTimedDesc_perm ((allEntries st).filter hasTime)
    rw [h0] at hp
    exact (List.Perm.eq_nil hp.symm)
  cases hs : sortTimedDesc ((allEntries st).filter hasTime) with
  | nil => exact absurd hs hne'
  | cons x rest =>
    refine ⟨x, ?_, ?_, ?_⟩
    · show (interleave (sortTimedDesc ((allEntries st).filter hasTime))
        (fyShuffle ((allEntries st).filter fun e => !hasTime e))).head? = some x
      rw [hs]
      rfl
    · have hx : x ∈ (allEntries st).filter hasTime :=
        ((sortTimedDesc_perm _).mem_iff).mp (by rw [hs]; simp)
      exact (List.mem_filter.mp hx).2
    · exact sortTimedDesc_head_max _ x (by rw [hs]; rfl)

/-- Witness for C2's head property at a concrete store with one
timestamped and two untimestamped comments. -/
theorem claimC2_witness :
    ∃ x, (sequenceEntries
        [("f", [{ id := "a", text := "t", timestamp := some 7,
                  range := { startLine := 0, startCharacter := 0, endLine := 0,
                             endCharacter := 0, selectedText := none } },
                { id := "b", text := "u", timestamp := none,
                  range := { startLine := 1, startCharacter := 0, endLine := 1,
                             endCharacter := 0, selectedText := none } },
                { id := "c", text := "v", timestamp := none,
                  range := { startLine := 2, startCharacter := 0, endLine := 2,
                             endCharacter := 0, selectedText := none } }])]).head? =
        some x ∧ hasTime x = true ∧
      ∀ y ∈ (allEntries
        [("f", [{ id := "a", text := "t", timestamp := some 7,
                  range := { startLine := 0, startCharacter := 0, endLine := 0,
                             endCharacter := 0, selectedText := none } },
                { id := "b", text := "u", timestamp := none,
                  range := { startLine := 1, startCharacter := 0, endLine := 1,
                             endCharacter := 0, selectedText := none } },
                { id := "c", text := "v", timestamp := none,
                  range := { startLine := 2, startCharacter := 0, endLine := 2,
                             endCharacter := 0, selectedText := none } }])]).filter
          hasTime, getTime y ≤ getTime x :=
  (claimC2 _).2.2.2 (by decide)

/-- C10: the sidebar sequence is a permutation of the collected
annotations — nothing is dropped or duplicated by the shuffle or the
interleave loop — its length equals the input length, and the empty
store yields the empty sequence. -/
theorem claimC10 :
    (∀ st : Store, (sequenceEntries st).Perm (allEntries st) ∧
      (sequenceEntries st).length = (allEntries st).length) ∧
    sequenceEntries [] = [] := by
  constructor
  · intro st
    have h1 := interleave_perm (sortTimedDesc ((allEntries st).filter hasTime))
      (fyShuffle ((allEntries st).filter fun e => !hasTime e))
    have h2 := List.Perm.append
      (sortTimedDesc_perm ((allEntries st).filter hasTime))
      (fyShuffle_perm ((allEntries st).filter fun e => !hasTime e))
    have h3 := List.filter_append_perm hasTime (allEntries st)
    have hperm : (sequenceEntries st).Perm (allEntries st) :=
      h1.trans (h2.trans h3)
    exact ⟨hperm, hperm.length_eq⟩
  · show sequenceEntries [] = []
    simp [sequenceEntries, allEntries, sortTimedDesc, fyShuffle, fyGo, interleave]

lemma lookupStore_setStore_self (st : Store) (f : String) (v : List Comment) :
    lookupStore (setStore st f v) f = some v := by
  induction st with
  | nil => simp [setStore, lookupStore]
  | cons p rest ih =>
    obtain ⟨g, cs⟩ := p
    by_cases hg : g = f
    · simp [setStore, lookupStore, hg]
    · simp [setStore, lookupStore, hg, ih]

lemma lookupStore_setStore_ne (st : Store) (f g : String) (v : List Comment)
    (h : g ≠ f) : lookupStore (setStore st f v) g = lookupStore st g := by
  induction st with
  | nil => simp [setStore, lookupStore, Ne.symm h]
  | cons p rest ih =>
    obtain ⟨k, cs⟩ := p
    by_cases hk : k = f
    · subst hk
      simp [setStore, lookupStore, Ne.symm h]
    · by_cases hkg : k = g <;> simp [setStore, lookupStore, hk, hkg, h, ih]

lemma setStore_WF (st : Store) (f : String) (v : List Comment)
    (hst : StoreWF st) (hv : v ≠ []) : StoreWF (setStore st f v) := by
  induction st with
  | nil =>
    intro p hp
    simp [setStore] at hp
    rw [hp]
    exact hv
  | cons q rest ih =>
    intro p hp
    obtain ⟨g, cs⟩ := q
    have hrest : StoreWF rest := fun r hr => hst r (by simp [hr])
    by_cases hg : g = f
    · simp [setStore, hg] at hp
      rcases hp with hp | hp
      · rw [hp]; exact hv
      · exact hst p (by simp [hp])
    · simp [setStore, hg] at hp
      rcases hp with hp | hp
      · exact hst p (by simp [hp])
      · exact ih hrest p hp

lemma delStore_WF (st : Store) (f : String) (hst : StoreWF st) :
    StoreWF (delStore st f) := by
  induction st with
  | nil => intro p hp; simp [delStore] at hp
  | cons q rest ih =>
    intro p hp
    obtain ⟨g, cs⟩ := q
    have hrest : StoreWF rest := fun r hr => hst r (by simp [hr])
    by_cases hg : g = f
    · simp [delStore, hg] at hp
      exact hrest p hp
    · simp [delStore, hg] at hp
      rcases hp with hp | hp
      · exact hst p (by simp [hp])
      · exact ih hrest p hp

lemma updateFirstById_length (cs : List Comment) (eid : String) (text : String)
    (sel : Option String) :
    (updateFirstById cs eid text sel).length = cs.length := by
  induction cs with
  | nil => rfl
  | cons c rest ih =>
    by_cases hc : c.id = eid <;> simp [updateFirstById, hc, ih]

lemma map_eq_self_of {α : Type} {l : List α} {f : α → α}
    (h : ∀ x ∈ l, f x = x) : l.map f = l := by
  induction l with
  | nil => rfl
  | cons a t ih => simp [h a (by simp), ih fun x hx => h x (by simp [hx])]

lemma updateFirstById_eq_map (cs : List Comment) (eid : String) (text : String)
    (sel : Option String) (hnodup : (cs.map Comment.id).Nodup) :
    updateFirstById cs eid text sel = cs.map fun c =>
      if c.id = eid then applyEdit text sel c else c := by
  induction cs with
  | nil => rfl
  | cons c rest ih =>
    rw [List.map_cons] at hnodup
    have hnd := List.nodup_cons.mp hnodup
    by_cases hc : c.id = eid
    · have hrest : ∀ x ∈ rest,
          (if x.id = eid then applyEdit text sel x else x) = x := by
        intro x hx
        apply if_neg
        intro he
        exact hnd.1 (hc ▸ he ▸ List.mem_map_of_mem Comment.id hx)
      simp only [updateFirstById, if_pos hc, List.map_cons]
      rw [map_eq_self_of hrest]
    · simp only [updateFirstById, if_neg hc, List.map_cons]
      rw [ih hnd.2]

/-- C5 counterexample: loading a persisted record whose document value is
an empty array installs an empty per-document entry, violating the
"no empty lists in the store" invariant the claim says every operation
preserves. -/
theorem claimC5_counterexample :
    ¬ StoreWF (loadStore (fun _ => "") [("/x.ts", RawEntry.arr [])]) := by
  decide

/-- C5 (amended): removal (commit of empty text) always preserves the
non-empty-entry invariant, creation with non-empty text preserves it, an
update preserves it provided the named `existingId` actually occurs in
the target document's list (an upsert naming an absent id can install an
empty entry), and load/migration preserves it provided every persisted
document value is itself non-empty (an empty persisted array or mapping
is loaded as an empty entry). -/
theorem claimC5 :
    (∀ (st : Store) (f : String) (rng : CommentRange) (text : String)
        (eidOpt : Option String) (newId : String) (now : Nat),
      StoreWF st → jsTrimStr text = "" →
      StoreWF (savePendingComment st f rng text eidOpt newId now)) ∧
    (∀ (st : Store) (f : String) (rng : CommentRange) (text : String)
        (newId : String) (now : Nat),
      StoreWF st → jsTrimStr text ≠ "" →
      StoreWF (savePendingComment st f rng text none newId now)) ∧
    (∀ (st : Store) (f : String) (rng : CommentRange) (text : String)
        (eid : String) (newId : String) (now : Nat),
      StoreWF st → jsTrimStr text ≠ "" →
      eid ∈ ((lookupStore st f).getD []).map Comment.id →
      StoreWF (savePendingComment st f rng text (some eid) newId now)) ∧
    (∀ (gen : Nat → String) (parsed : List (String × RawEntry)),
      (∀ p ∈ parsed, rawNonEmpty p.2) → StoreWF (loadStore gen parsed)) := by
  refine ⟨?_, ?_, ?_, ?_⟩
  · intro st f rng text eidOpt newId now hst htext
    cases eidOpt with
    | none => simpa [savePendingComment, htext] using hst
    | some eid =>
      cases hlook : lookupStore st f with
      | none => simpa [savePendingComment, htext, hlook] using hst
      | some cs =>
        cases hidx : cs.findIdx? (fun c => c.id = eid) with
        | none => simpa [savePendingComment, htext, hlook, hidx] using hst
        | some i =>
          by_cases hnil : cs.eraseIdx i = []
          · simpa [savePendingComment, htext, hlook, hidx, hnil] using
              delStore_WF st f hst
          · simpa [savePendingComment, htext, hlook, hidx, hnil] using
              setStore_WF st f (cs.eraseIdx i) hst hnil
  · intro st f rng text newId now hst htext
    rw [savePendingComment.eq_def, if_neg htext]
    exact setStore_WF st f _ hst (by simp)
  · intro st f rng text eid newId now hst htext hmem
    rw [savePendingComment.eq_def, if_neg htext]
    apply setStore_WF st f _ hst
    intro h0
    have hlen := updateFirstById_length ((lookupStore st f).getD []) eid text
      rng.selectedText
    rw [h0] at hlen
    have : ((lookupStore st f).getD []) = [] :=
      List.length_eq_zero.mp hlen.symm
    rw [this] at hmem
    simp at hmem
  · intro gen parsed hall p hp
    obtain ⟨q, hq, hpq⟩ := List.mem_map.mp hp
    have := hall q hq
    cases hraw : q.2 with
    | arr cs =>
      rw [hraw] at this
      rw [← hpq]
      simpa [migrateRaw, hraw] using this
    | legacy es =>
      rw [hraw] at this
      rw [← hpq]
      simp only [migrateRaw, hraw]
      intro h0
      apply this
      have hlen := migrateLegacyFrom_length gen 0 es
      rw [migrateLegacy] at h0
      rw [h0] at hlen
      exact List.length_eq_zero.mp hlen.symm

/-- Witness for the amended C5: deleting the only annotation of a
document (empty committed text) leaves a store satisfying the
invariant. -/
theorem claimC5_witness :
    StoreWF (savePendingComment demoStore "f" demoRange "" (some "a") "n" 0) :=
  claimC5.1 demoStore "f" demoRange "" (some "a") "n" 0 (by decide) (by decide)

/-- C9: with a non-empty committed text, an upsert that names an existing
id rewrites the document's list by editing exactly the comments with that
id (their `text`, and `selectedText` when the committed range has one)
while leaving every other comment and every other document untouched;
`applyEdit` preserves id, timestamp and all four anchor coordinates; and
an upsert without an id appends one fresh comment with the generated id
and current timestamp. -/
theorem claimC9 (st : Store) (f : String) (rng : CommentRange) (text : String)
    (newId : String) (now : Nat) (hne : jsTrimStr text ≠ "") :
    (∀ (cs : List Comment) (eid : String),
      lookupStore st f = some cs → (cs.map Comment.id).Nodup →
      lookupStore (savePendingComment st f rng text (some eid) newId now) f =
          some (cs.map fun c =>
            if c.id = eid then applyEdit text rng.selectedText c else c) ∧
        ∀ g, g ≠ f →
          lookupStore (savePendingComment st f rng text (some eid) newId now) g =
            lookupStore st g) ∧
    (∀ c : Comment,
      (applyEdit text rng.selectedText c).id = c.id ∧
      (applyEdit text rng.selectedText c).timestamp = c.timestamp ∧
      (applyEdit text rng.selectedText c).range.startLine =
        c.range.startLine ∧
      (applyEdit text rng.selectedText c).range.startCharacter =
        c.range.startCharacter ∧
      (applyEdit text rng.selectedText c).range.endLine = c.range.endLine ∧
      (applyEdit text rng.selectedText c).range.endCharacter =
        c.range.endCharacter ∧
      (applyEdit text rng.selectedText c).text = text) ∧
    (savePendingComment st f rng text none newId now =
      setStore st f (((lookupStore st f).getD []) ++
        [{ id := newId, text := text, timestamp := some now,
           range := { startLine := rng.startLine,
                      startCharacter := rng.startCharacter,
                      endLine := rng.endLine, endCharacter := rng.endCharacter,
                      selectedText := rng.selectedText } }])) := by
  refine ⟨?_, ?_, ?_⟩
  · intro cs eid hlook hnodup
    have hform : savePendingComment st f rng text (some eid) newId now =
        setStore st f (updateFirstById cs eid text rng.selectedText) := by
      simp [savePendingComment, hne, hlook]
    rw [hform, updateFirstById_eq_map cs eid text rng.selectedText hnodup]
    exact ⟨lookupStore_setStore_self st f _,
      fun g hg => lookupStore_setStore_ne st f g _ hg⟩
  · intro c
    cases hsel : rng.selectedText <;> simp [applyEdit, hsel]
  · simp [savePendingComment, hne]

/-- Witness for C9 at a concrete one-comment store. -/
theorem claimC9_witness :
    lookupStore (savePendingComment demoStore "f" demoRange "x" (some "a")
        "n" 5) "f" =
        some ([demoComment].map fun c =>
          if c.id = "a" then applyEdit "x" demoRange.selectedText c else c) ∧
      ∀ g, g ≠ "f" →
        lookupStore (savePendingComment demoStore "f" demoRange "x" (some "a")
            "n" 5) g =
          lookupStore demoStore g :=
  (claimC9 demoStore "f" demoRange "x" "n" 5 (by decide)).1 [demoComment] "a"
    (by decide) (by decide)

end LocalComments
